import Mathlib

/-!
Verification development for the streaming extraction engine of
`server/agno_api.py` (SEANews).

Conventions of the shallow embedding:
* Python `str` values are modelled as `List Char` (Unicode scalar values);
  concrete buffers are written as string literals converted with `.data`.
* Python's tolerant, index-based scanning loops become structural
  recursions over `List Char`.
* `re.split(r'\n###\s+', s)` is modelled by a left-to-right scanner
  (`pySplitM`) that matches the literal `"\n###"` followed by a greedy
  non-empty whitespace run, exactly as the regex engine does.
* Python's `\s` (for `str` patterns) is modelled by `isWS`, covering the
  ASCII whitespace characters and the Unicode whitespace code points that
  CPython's `re` module accepts.  `str.strip()` is modelled with the same
  predicate.
-/

/-- Whitespace recognised by Python's `re` module for `\s` on `str`
(also used to model `str.strip()`). -/
def isWS (c : Char) : Bool :=
  let n := c.toNat
  (9 ≤ n && n ≤ 13) || n == 32 || (28 ≤ n && n ≤ 31) ||
  n == 133 || n == 160 || n == 5760 ||
  (8192 ≤ n && n ≤ 8202) || n == 8232 || n == 8233 ||
  n == 8239 || n == 8287 || n == 12288

/-- Does the regex `\n###\s+` match at the head of the list?
(The `\s+` only needs its first character here; the greedy run is
consumed by the scanner.) -/
def delimAt : List Char → Bool
  | c1 :: c2 :: c3 :: c4 :: c5 :: _ =>
    c1 = '\n' && c2 = '#' && c3 = '#' && c4 = '#' && isWS c5
  | _ => false

/-- Does `\n###\s+` match anywhere in the list? -/
def hasDelim : List Char → Bool
  | [] => false
  | c :: r => delimAt (c :: r) || hasDelim r

/-- Scanner implementing `re.split(r'\n###\s+', content)`.
`mode = true` means the scanner is inside the greedy `\s+` run of a
delimiter match (the accumulator is empty there); `mode = false` is the
ordinary scan with `acc` holding the current section reversed. -/
def pySplitM : Bool → List Char → List Char → List (List Char)
  | _, acc, [] => [acc.reverse]
  | true, acc, c :: r => if isWS c then pySplitM true acc r else pySplitM false [c] r
  | false, acc, '\n' :: '#' :: '#' :: '#' :: w :: rest =>
    if isWS w then acc.reverse :: pySplitM true [] rest
    else pySplitM false ('\n' :: acc) ('#' :: '#' :: '#' :: w :: rest)
  | false, acc, c :: r => pySplitM false (c :: acc) r

/-- `re.split(r'\n###\s+', content)` from `parse_news_articles`
(`server/agno_api.py` lines 679-688 and 694-705). -/
def pySplit (l : List Char) : List (List Char) :=
  pySplitM false [] l

/-- Python `str.strip()`: drop leading and trailing whitespace. -/
def pyStrip (l : List Char) : List Char :=
  ((l.reverse.dropWhile isWS).reverse).dropWhile isWS

/-- Python `needle in hay` substring test. -/
def containsSub (needle : List Char) : List Char → Bool
  | [] => needle.isEmpty
  | c :: r => (needle.isPrefixOf (c :: r) : Bool) || containsSub needle r

/-- The fixed system-keyword blacklist of `parse_news_section`
(`server/agno_api.py` line 639). -/
def systemKeywords : List (List Char) :=
  ["案件".data, "CASE".data, "會話".data, "檢索".data, "ID".data,
   "編號".data, "系統".data, "助理".data, "我是".data, "我可以".data]

/-- ASCII decimal digit (models `\d` for the article texts in scope). -/
def isDigit09 (c : Char) : Bool := '0' ≤ c && c ≤ '9'

/-- Greedy `\d{1,2}` followed by a character from `seps`: take two digits
when the third character is a separator, one digit when the second is.
Returns (digits consumed, separator, remaining input).  The regex engine
backtracks from two digits to one; a digit is never a separator, so the
greedy choice below is equivalent. -/
def takeOneTwoDigitsSep (seps : List Char) : List Char → Option (List Char × Char × List Char)
  | d1 :: d2 :: s :: r =>
    if isDigit09 d1 then
      if isDigit09 d2 then
        if seps.contains s then some ([d1, d2], s, r) else none
      else if seps.contains d2 then some ([d1], d2, s :: r) else none
    else none
  | d1 :: d2 :: [] =>
    if isDigit09 d1 && seps.contains d2 then some ([d1], d2, []) else none
  | _ => none

/-- Greedy `\d{1,2}` with nothing mandatory after it. -/
def takeOneTwoDigits : List Char → Option (List Char × List Char)
  | d1 :: d2 :: r =>
    if isDigit09 d1 then
      if isDigit09 d2 then some ([d1, d2], r) else some ([d1], d2 :: r)
    else none
  | d1 :: [] => if isDigit09 d1 then some ([d1], []) else none
  | _ => none

/-- Attempt the date pattern
`發布時間[：:]\s*(\d{4}[-年]\d{1,2}[-月]\d{1,2}日?)` at the head of the
list, returning capture group 1. -/
def tryDateAt (l : List Char) : Option (List Char) :=
  match l with
  | '發' :: '布' :: '時' :: '間' :: sep :: r =>
    if sep = '：' || sep = ':' then
      match r.dropWhile isWS with
      | y1 :: y2 :: y3 :: y4 :: s1 :: r2 =>
        if isDigit09 y1 && isDigit09 y2 && isDigit09 y3 && isDigit09 y4 &&
           (s1 = '-' || s1 = '年') then
          match takeOneTwoDigitsSep ['-', '月'] r2 with
          | none => none
          | some (mo, s2, r3) =>
            match takeOneTwoDigits r3 with
            | none => none
            | some (dy, r4) =>
              let stem := y1 :: y2 :: y3 :: y4 :: s1 :: (mo ++ s2 :: dy)
              match r4 with
              | '日' :: _ => some (stem ++ ['日'])
              | _ => some stem
        else none
      | _ => none
    else none
  | _ => none

/-- `re.search(r'發布時間[：:]\s*(\d{4}[-年]\d{1,2}[-月]\d{1,2}日?)', content)`
from `parse_news_section`: leftmost match, capture group 1. -/
def searchDate : List Char → Option (List Char)
  | [] => none
  | c :: r =>
    match tryDateAt (c :: r) with
    | some g => some g
    | none => searchDate r

/-- Character admitted by `[^\s\)]` in the URL pattern. -/
def isUrlChar (c : Char) : Bool := !isWS c && c != ')'

/-- Attempt the pattern `https?://[^\s\)]+` at the head of the list,
returning the whole match. -/
def tryUrlAt (l : List Char) : Option (List Char) :=
  match l with
  | 'h' :: 't' :: 't' :: 'p' :: r =>
    match r with
    | 's' :: ':' :: '/' :: '/' :: body =>
      match body.takeWhile isUrlChar with
      | [] => none
      | run => some ("https://".data ++ run)
    | ':' :: '/' :: '/' :: body =>
      match body.takeWhile isUrlChar with
      | [] => none
      | run => some ("http://".data ++ run)
    | _ => none
  | _ => none

/-- `re.search(r'https?://[^\s\)]+', content)` from `parse_news_section`:
leftmost match. -/
def searchUrl : List Char → Option (List Char)
  | [] => none
  | c :: r =>
    match tryUrlAt (c :: r) with
    | some g => some g
    | none => searchUrl r

/-- A candidate news record, as produced by `parse_news_section`
(`server/agno_api.py` lines 625-672). -/
structure NewsArticle where
  title : List Char
  content : List Char
  publish_date : List Char
  url : List Char
deriving DecidableEq, Repr

/-- `parse_news_section(section)` (`server/agno_api.py` lines 625-672):
validate one delimiter-bounded segment and extract a candidate record. -/
def parseNewsSection (sec : List Char) : Option NewsArticle :=
  if pyStrip sec = [] then none
  else
    match (pyStrip sec).splitOn '\n' with
    | l0 :: l1 :: restL =>
      let title := pyStrip l0
      let article_content := pyStrip (List.intercalate ['\n'] (l1 :: restL))
      if systemKeywords.any (fun kw => containsSub kw title) then none
      else
        let publish_date := (searchDate article_content).getD []
        let url := (searchUrl article_content).getD []
        if url = [] ∧ publish_date = [] then none
        else if title.length < 5 ∨ title.length > 200 then none
        else if article_content.length < 30 then none
        else some ⟨title, article_content, publish_date, url⟩
    | _ => none

/-- `parse_news_articles(content)` (`server/agno_api.py` lines 675-688):
batch segmentation, every segment is validated. -/
def parseNewsArticles (content : List Char) : List NewsArticle :=
  (pySplit content).filterMap parseNewsSection

/-- `parse_news_articles_streaming(content)` (`server/agno_api.py` lines
691-705): when the buffer splits into at most two sections the call
returns nothing; otherwise the final (possibly unterminated) section is
discarded and the rest are validated. -/
def parseNewsArticlesStreaming (content : List Char) : List NewsArticle :=
  let sections := pySplit content
  if sections.length ≤ 2 then []
  else sections.dropLast.filterMap parseNewsSection

/-- Python `str.lower()` restricted to the ASCII range (the only case
mapping the fingerprint keys in scope exercise). -/
def asciiLower (l : List Char) : List Char :=
  l.map (fun c => if 'A' ≤ c && c ≤ 'Z' then Char.ofNat (c.toNat + 32) else c)

/-- `make_news_key(article)` (`server/agno_api.py` lines 777-783):
canonical fingerprint `lower(title)|publish_date|lower(url)`, empty when
the stripped title is empty. -/
def makeNewsKey (a : NewsArticle) : List Char :=
  let title := pyStrip a.title
  let publish_date := pyStrip a.publish_date
  let url := pyStrip a.url
  if title = [] then []
  else asciiLower title ++ '|' :: (publish_date ++ '|' :: asciiLower url)

/-- The dedup filtering loop of `build_news_records_from_articles`
(`server/agno_api.py` lines 796-805): keep a record iff its fingerprint
key is non-empty and unseen, adding kept keys to the seen-set.  Returns
the kept records in input order together with the final seen-set. -/
def dedupNewArticles : List NewsArticle → List (List Char) → List NewsArticle × List (List Char)
  | [], seen => ([], seen)
  | a :: rest, seen =>
    let key := makeNewsKey a
    if key = [] then dedupNewArticles rest seen
    else if key ∈ seen then dedupNewArticles rest seen
    else
      let out := dedupNewArticles rest (key :: seen)
      (a :: out.1, out.2)

/-- A status-log entry over the five keys the routing updates of
`server/agno_api.py` carry (`id`, `label`, `status`, `eta`, `stage`);
`none` models an absent dictionary key, `some ""` a present empty value. -/
structure RouteEntry where
  id : Option String
  label : Option String
  status : Option String
  eta : Option String
  stage : Option String
deriving DecidableEq, Repr

/-- Python dict overlay for one key: the update's value wins whenever the
key is present in the update, regardless of the value. -/
def overlayField (old new : Option String) : Option String :=
  match new with
  | some v => some v
  | none => old

/-- `{**step, **update}` from `update_routing_log` on the five-key
universe. -/
def mergeEntry (step upd : RouteEntry) : RouteEntry :=
  ⟨overlayField step.id upd.id, overlayField step.label upd.label,
   overlayField step.status upd.status, overlayField step.eta upd.eta,
   overlayField step.stage upd.stage⟩

/-- Overlay by non-empty fields only, as the specification's merge rule
words it: a present-but-empty update value does not replace the old one.
(Stated from the spec, for comparison with `mergeEntry`.) -/
def specMergeNonEmpty (step upd : RouteEntry) : RouteEntry :=
  let ov := fun (old new : Option String) =>
    match new with
    | some v => if v = "" then old else some v
    | none => old
  ⟨ov step.id upd.id, ov step.label upd.label, ov step.status upd.status,
   ov step.eta upd.eta, ov step.stage upd.stage⟩

/-- `update_routing_log(routing_log, update)` (`server/agno_api.py`
lines 1277-1288).  The Python function mutates the list in place and
returns the changed flag; here the new list is returned alongside it. -/
def updateRoutingLog : List RouteEntry → RouteEntry → Bool × List RouteEntry
  | [], upd => (true, [upd])
  | step :: rest, upd =>
    if step.id = upd.id then
      if mergeEntry step upd = step then (false, step :: rest)
      else (true, mergeEntry step upd :: rest)
    else
      let out := updateRoutingLog rest upd
      (out.1, step :: out.2)

/-- Whitespace skipped by `extract_assistant_content_from_json` between
the colon and the opening quote: exactly the four characters of
`" \t\r\n"` tested by the source. -/
def isJsonWS (c : Char) : Bool :=
  let n := c.toNat
  n == 32 || n == 9 || n == 13 || n == 10

/-- Suffix of the haystack starting at the first occurrence of `needle`
(`str.find` returning the tail at the found index; `none` for `-1`). -/
def dropToSub (needle : List Char) : List Char → Option (List Char)
  | [] => if needle.isEmpty then some [] else none
  | c :: r =>
    if needle.isPrefixOf (c :: r) then some (c :: r) else dropToSub needle r

/-- Value of one hexadecimal digit (ASCII). -/
def hexVal (c : Char) : Option Nat :=
  let n := c.toNat
  if 48 ≤ n && n ≤ 57 then some (n - 48)
  else if 97 ≤ n && n ≤ 102 then some (n - 87)
  else if 65 ≤ n && n ≤ 70 then some (n - 55)
  else none

/-- Hex digit run with single underscores allowed between digits
(PEP 515), accumulating into `acc`; the first character must already
have been consumed by the caller. -/
def hexCore (acc : Nat) : List Char → Option Nat
  | [] => some acc
  | '_' :: rest =>
    match rest with
    | c :: r =>
      match hexVal c with
      | some v => hexCore (acc * 16 + v) r
      | none => none
    | [] => none
  | c :: rest =>
    match hexVal c with
    | some v => hexCore (acc * 16 + v) rest
    | none => none

/-- Digit part of `int(s, 16)`: at least one digit, single underscores
between digits. -/
def hexDigitsPart (l : List Char) : Option Nat :=
  match l with
  | c :: rest =>
    match hexVal c with
    | some v => hexCore v rest
    | none => none
  | [] => none

/-- Magnitude part of `int(s, 16)` after the sign: optional `0x`/`0X`
base prefix (one underscore may follow it). -/
def hexMagnitude (l : List Char) : Option Nat :=
  match l with
  | '0' :: x :: rest =>
    if x = 'x' ∨ x = 'X' then
      match rest with
      | '_' :: rest2 => hexDigitsPart rest2
      | _ => hexDigitsPart rest
    else hexDigitsPart l
  | _ => hexDigitsPart l

/-- `int(s, 16)` on the four-character escape payloads: surrounding
whitespace, an optional sign, an optional base prefix, underscores per
PEP 515.  (Non-ASCII unicode digits are out of scope for these JSON
escape payloads.) -/
def pyIntHex16 (l : List Char) : Option Int :=
  let core := pyStrip l
  match core with
  | '+' :: rest => (hexMagnitude rest).map Int.ofNat
  | '-' :: rest => (hexMagnitude rest).map (fun n => -(Int.ofNat n))
  | _ => (hexMagnitude core).map Int.ofNat

/-- `chr(int(hex_str, 16))` for a `\uXXXX` payload: `none` when `int`
or `chr` raises (the source then falls back to a literal `u`).
Surrogate code points, which Lean's `Char` cannot carry, are mapped
through `Char.ofNat` to `'\0'`; only the escape's decoded value differs
there, never the control flow. -/
def pyChr4 (h1 h2 h3 h4 : Char) : Option Char :=
  match pyIntHex16 [h1, h2, h3, h4] with
  | some n => if 0 ≤ n then some (Char.ofNat n.toNat) else none
  | none => none

/-- The decoding loop of `extract_assistant_content_from_json`
(`server/agno_api.py` lines 741-774): consume characters after the
opening quote, applying JSON escapes, stopping at an unescaped `"` or at
the end of the buffer (everything decoded so far is returned). -/
def escDecode (nxt : Char) : Char :=
  if nxt = '"' ∨ nxt = '\\' ∨ nxt = '/' then nxt
  else if nxt = 'n' then '\n'
  else if nxt = 'r' then '\r'
  else if nxt = 't' then '\t'
  else if nxt = 'b' then Char.ofNat 8
  else if nxt = 'f' then Char.ofNat 12
  else nxt

/-- The decoding loop of `extract_assistant_content_from_json`
(`server/agno_api.py` lines 741-774), as a two-state scanner:
`mode = false` is the ordinary character loop, `mode = true` means the
previous character was an unprocessed backslash.  The loop consumes
characters after the opening quote, applying JSON escapes (the escape
dispatch order of the source collapses to `escDecode`, whose cases are
mutually exclusive), stopping at an unescaped `"` or at the end of the
buffer â everything decoded so far is returned.  An invalid `\uXXXX`
payload emits a literal `u` and re-enters the loop at the payload, as the
source does by advancing `i` by 2. -/
def decodeM : Bool → List Char → List Char
  | false, [] => []
  | false, c :: rest =>
    if c = '"' then []
    else if c = '\\' then decodeM true rest
    else c :: decodeM false rest
  | true, [] => []
  | true, nxt :: rest2 =>
    if nxt = 'u' then
      match rest2 with
      | h1 :: h2 :: h3 :: h4 :: rest3 =>
        if (pyChr4 h1 h2 h3 h4).isSome then
          (pyChr4 h1 h2 h3 h4).getD 'u' :: decodeM false rest3
        else 'u' :: decodeM false (h1 :: h2 :: h3 :: h4 :: rest3)
      | [] => ['u']
      | [a1] => 'u' :: decodeM false [a1]
      | [a1, a2] => 'u' :: decodeM false [a1, a2]
      | [a1, a2, a3] => 'u' :: decodeM false [a1, a2, a3]
    else escDecode nxt :: decodeM false rest2

/-- `decodeM` from the normal state: the decoder applied right after the
opening quote. -/
def decodeJsonString (l : List Char) : List Char := decodeM false l

/-- Detector for a buffer ending inside a truncated `\uXXXX` escape: the
only decoder state in which appending more text can rewrite already
emitted output.  Mirrors the recursion of `decodeM`. -/
def decodeTruncUM : Bool → List Char → Bool
  | false, [] => false
  | false, c :: rest =>
    if c = '"' then false
    else if c = '\\' then decodeTruncUM true rest
    else decodeTruncUM false rest
  | true, [] => false
  | true, nxt :: rest2 =>
    if nxt = 'u' then
      match rest2 with
      | h1 :: h2 :: h3 :: h4 :: rest3 =>
        if (pyChr4 h1 h2 h3 h4).isSome then decodeTruncUM false rest3
        else decodeTruncUM false (h1 :: h2 :: h3 :: h4 :: rest3)
      | _ => true
    else decodeTruncUM false rest2

/-- `decodeTruncUM` from the normal state. -/
def decodeTruncU (l : List Char) : Bool := decodeTruncUM false l

/-- `extract_assistant_content_from_json(raw)` (`server/agno_api.py`
lines 708-774): locate `"assistant"`, then `"content"`, then the colon,
skip whitespace, require an opening quote and decode until an unescaped
closing quote or the end of the buffer. -/
def extractACFJ (raw : List Char) : List Char :=
  if raw = [] then []
  else
    match dropToSub "\"assistant\"".data raw with
    | none => []
    | some s1 =>
      match dropToSub "\"content\"".data s1 with
      | none => []
      | some s2 =>
        match dropToSub [':'] s2 with
        | none => []
        | some s3 =>
          match (s3.drop 1).dropWhile isJsonWS with
          | '"' :: rest => decodeJsonString rest
          | _ => []

/-- Does the relevant decode region of `raw` end inside a truncated
`\uXXXX` escape?  (`false` whenever `extract_assistant_content_from_json`
never reaches the decoding loop.) -/
def extractTruncU (raw : List Char) : Bool :=
  if raw = [] then false
  else
    match dropToSub "\"assistant\"".data raw with
    | none => false
    | some s1 =>
      match dropToSub "\"content\"".data s1 with
      | none => false
      | some s2 =>
        match dropToSub [':'] s2 with
        | none => false
        | some s3 =>
          match (s3.drop 1).dropWhile isJsonWS with
          | '"' :: rest => decodeTruncU rest
          | _ => false

/-- JSON-like values, enough to express the artifacts this API builds
and the results of an external JSON parser. -/
inductive JVal where
  | str : List Char → JVal
  | arr : List JVal → JVal
  | obj : List (List Char × JVal) → JVal

/-- Field lookup in an object value. -/
def jGet (v : JVal) (key : List Char) : Option JVal :=
  match v with
  | .obj kvs => kvs.lookup key
  | _ => none

/-- `build_empty_response(message)` (`server/agno_api.py` lines 593-612):
the fallback artifact with every key of the output schema present and
empty/zero-valued, the message as the user-visible assistant content. -/
def buildEmptyResponse (message : List Char) : JVal :=
  .obj
    [("assistant".data, .obj [("content".data, .str message), ("bullets".data, .arr [])]),
     ("summary".data, .obj
       [("output".data, .str []),
        ("borrower".data, .obj
          [("name".data, .str []), ("description".data, .str []), ("rating".data, .str [])]),
        ("metrics".data, .arr []),
        ("risks".data, .arr []),
        ("source_doc_id".data, .str []),
        ("source_doc_ids".data, .arr [])]),
     ("translation".data, .obj
       [("output".data, .str []), ("clauses".data, .arr []),
        ("source_doc_id".data, .str []), ("source_doc_ids".data, .arr [])]),
     ("memo".data, .obj
       [("output".data, .str []), ("sections".data, .arr []),
        ("recommendation".data, .str []), ("conditions".data, .str [])]),
     ("routing".data, .arr [])]

/-- The fallback message of `safe_parse_json`: a fixed header, the first
200 characters of the raw buffer, and a trailing ellipsis. -/
def fallbackMsg (text : List Char) : List Char :=
  "抱歉，處理過程中發生問題。原始回應：".data ++ text.take 200 ++ "...".data

/-- `text.find(ch)` as an index option. -/
def firstIdxOf (ch : Char) (l : List Char) : Option Nat :=
  l.findIdx? (fun c => c = ch)

/-- `text.rfind(ch)` as an index option. -/
def lastIdxOf (ch : Char) (l : List Char) : Option Nat :=
  match l.reverse.findIdx? (fun c => c = ch) with
  | some k => some (l.length - 1 - k)
  | none => none

/-- The recovery slice of `safe_parse_json`: `text[start:end+1]` for the
first `{` and the last `}`, provided both exist and `end > start`. -/
def sliceOf (text : List Char) : Option (List Char) :=
  match firstIdxOf '\x7b' text, lastIdxOf '\x7d' text with
  | some s, some e => if s < e then some ((text.drop s).take (e + 1 - s)) else none
  | _, _ => none

/-- `safe_parse_json(text)` (`server/agno_api.py` lines 1559-1571).
`json.loads` is external library code; it is abstracted as the parser
parameter `p` (`none` models a raised `JSONDecodeError`), so the theorem
below holds for every parser. -/
def safeParseJson (p : List Char → Option JVal) (text : List Char) : JVal :=
  match p text with
  | some v => v
  | none =>
    match sliceOf text with
    | some sub =>
      match p sub with
      | some v => v
      | none => buildEmptyResponse (fallbackMsg text)
    | none => buildEmptyResponse (fallbackMsg text)

/-- Is the head character (if any) not whitespace?  The text following
the last delimiter of a buffer always satisfies this, because the greedy
`\s+` run of the delimiter consumes every following whitespace char. -/
def headNotWS : List Char → Bool
  | [] => true
  | ch :: _ => !isWS ch

/-- One empty delimiter-bounded terminator: the heading delimiter text
itself. -/
def termSeq : List Char := "\n### ".data

/-- The spec scenario buffer: one complete article section followed by an
incomplete second heading. -/
def c1Buffer : List Char :=
  ("### Vietnam cuts rates\n發布時間：2025-12-28\n" ++
   "Central bank cuts its key interest rate.\nhttps://vnexpress.net/x\n### Thai").data

/-- A complete article section, without a heading marker of its own (the
splitter consumes the `\n### ` delimiter in front of it). -/
def vnArticleText : List Char :=
  ("Vietnam cuts rates\n發布時間：2025-12-28\n" ++
   "Central bank cuts its key interest rate.\nhttps://vnexpress.net/x").data

/-- The record `parse_news_section` extracts from `vnArticleText`. -/
def vnRecord : NewsArticle :=
  ⟨"Vietnam cuts rates".data,
   ("發布時間：2025-12-28\nCentral bank cuts its key interest rate.\n" ++
    "https://vnexpress.net/x").data,
   "2025-12-28".data,
   "https://vnexpress.net/x".data⟩

/-- A buffer whose single article is closed by a final delimiter (two
split sections in total). -/
def c3Buffer : List Char :=
  ("### Vietnam cuts rates\n發布時間：2025-12-28\n" ++
   "Central bank cuts its key interest rate.\nhttps://vnexpress.net/x").data ++ termSeq

/-- A buffer with a preamble and one complete article, ending with a
final delimiter (three split sections in total). -/
def preBuffer : List Char := "x".data ++ termSeq ++ vnArticleText ++ termSeq

/-- The full last segment of the C2 witness buffer. -/
def thaiTail : List Char := "Thai baht rallies".data

/-- An incomplete JSON buffer whose assistant content is mid-value. -/
def jsonW1 : List Char := "\x7b\"assistant\": \x7b\"content\": \"hel".data

/-- The continuation completing `jsonW1`. -/
def jsonExt1 : List Char := "lo\"\x7d\x7d".data

/-- Another incomplete JSON buffer for the partial-value property. -/
def jsonW2 : List Char := "\x7b\"assistant\": \x7b\"content\": \"ab".data

/-- A routing entry with a non-empty label. -/
def entryA : RouteEntry := ⟨some "a", some "X", none, none, none⟩

/-- An update for the same id whose label is present but empty. -/
def updEmptyLabel : RouteEntry := ⟨some "a", some "", none, none, none⟩

/-- A second routing entry, for the amended-merge witness. -/
def entryB : RouteEntry := ⟨some "b", some "Y", some "running", none, none⟩

/-- An update changing `entryB`. -/
def updB : RouteEntry := ⟨some "b", none, some "done", some "", none⟩

/-! Lemmas about the section splitter. -/

theorem pySplitM_nil (mode : Bool) (acc : List Char) :
    pySplitM mode acc [] = [acc.reverse] := by
  cases mode <;> rfl

theorem pySplitM_true_ws (acc : List Char) (c : Char) (r : List Char) (h : isWS c = true) :
    pySplitM true acc (c :: r) = pySplitM true acc r := by
  simp [pySplitM, h]

theorem pySplitM_true_nws (acc : List Char) (c : Char) (r : List Char) (h : isWS c = false) :
    pySplitM true acc (c :: r) = pySplitM false [c] r := by
  simp [pySplitM, h]

theorem pySplitM_false_delim (acc : List Char) (c : Char) (r : List Char)
    (h : delimAt (c :: r) = true) :
    pySplitM false acc (c :: r) = acc.reverse :: pySplitM true [] (r.drop 4) := by
  match c, r with
  | c1, c2 :: c3 :: c4 :: c5 :: rest =>
    simp only [delimAt, Bool.and_eq_true, decide_eq_true_eq] at h
    obtain ⟨⟨⟨⟨h1, h2⟩, h3⟩, h4⟩, h5⟩ := h
    subst h1; subst h2; subst h3; subst h4
    simp [pySplitM, h5]
  | c1, [] => simp [delimAt] at h
  | c1, [c2] => simp [delimAt] at h
  | c1, [c2, c3] => simp [delimAt] at h
  | c1, [c2, c3, c4] => simp [delimAt] at h

theorem pySplitM_false_nodelim (acc : List Char) (c : Char) (r : List Char)
    (h : delimAt (c :: r) = false) :
    pySplitM false acc (c :: r) = pySplitM false (c :: acc) r := by
  rw [pySplitM.eq_def]
  split
  · exfalso; simp_all
  · exfalso; simp_all
  · rename_i w rest hf heq
    injection heq with h1 heq2
    subst h1; subst heq2
    simp only [delimAt] at h
    simp at h
    rw [if_neg (by simp [h])]
  · rename_i hno hf heq
    injection heq with h1 h2
    subst h1; subst h2
    rfl

theorem pySplitM_ne_nil (mode : Bool) (acc l : List Char) :
    pySplitM mode acc l ≠ [] := by
  induction mode, acc, l using pySplitM.induct with
  | case1 mode acc => simp [pySplitM_nil]
  | case2 acc c r hws ih => rw [pySplitM_true_ws _ _ _ hws]; exact ih
  | case3 acc c r hnws ih =>
    rw [pySplitM_true_nws _ _ _ (by simpa using hnws)]; exact ih
  | case4 acc w rest hws ih => simp [pySplitM, hws]
  | case5 acc w rest hnws ih => simpa [pySplitM, hnws] using ih
  | case6 acc c r hno ih =>
    have hd : delimAt (c :: r) = false := by
      cases hdt : delimAt (c :: r)
      · rfl
      · exfalso
        match c, r, hdt with
        | c1, c2 :: c3 :: c4 :: c5 :: rest, hdt =>
          simp only [delimAt, Bool.and_eq_true, decide_eq_true_eq] at hdt
          exact hno c5 rest hdt.1.1.1.1 (by rw [hdt.1.1.1.2, hdt.1.1.2, hdt.1.2])
    rw [pySplitM_false_nodelim _ _ _ hd]; exact ih

theorem delimAt_true_shape (l : List Char) (h : delimAt l = true) :
    ∃ w rest, l = '\n' :: '#' :: '#' :: '#' :: w :: rest ∧ isWS w = true := by
  match l with
  | c1 :: c2 :: c3 :: c4 :: c5 :: rest =>
    simp only [delimAt, Bool.and_eq_true, decide_eq_true_eq] at h
    exact ⟨c5, rest, by rw [h.1.1.1.1, h.1.1.1.2, h.1.1.2, h.1.2], h.2⟩
  | [] => simp [delimAt] at h
  | [c1] => simp [delimAt] at h
  | [c1, c2] => simp [delimAt] at h
  | [c1, c2, c3] => simp [delimAt] at h
  | [c1, c2, c3, c4] => simp [delimAt] at h

theorem delimAt_false_short (l : List Char) (h : l.length < 5) : delimAt l = false := by
  match l with
  | [] => rfl
  | [c1] => rfl
  | [c1, c2] => rfl
  | [c1, c2, c3] => rfl
  | [c1, c2, c3, c4] => rfl
  | c1 :: c2 :: c3 :: c4 :: c5 :: rest => simp at h; omega

theorem delimAt_append_eq (l t : List Char) (h : 5 ≤ l.length) :
    delimAt (l ++ t) = delimAt l := by
  match l with
  | c1 :: c2 :: c3 :: c4 :: c5 :: rest => simp [delimAt]
  | [] => simp at h
  | [c1] => simp at h
  | [c1, c2] => simp at h
  | [c1, c2, c3] => simp at h
  | [c1, c2, c3, c4] => simp at h

theorem delimAt_append_true (l t : List Char) (h : delimAt l = true) :
    delimAt (l ++ t) = true := by
  obtain ⟨w, rest, heq, hw⟩ := delimAt_true_shape l h
  subst heq
  simp [delimAt, hw]

theorem hasDelim_short (l : List Char) (h : l.length < 5) : hasDelim l = false := by
  induction l with
  | nil => rfl
  | cons c r ih =>
    simp only [hasDelim, Bool.or_eq_false_iff]
    refine ⟨delimAt_false_short _ h, ih ?_⟩
    simp at h ⊢; omega

theorem hasDelim_append_true (a b : List Char) (h : hasDelim a = true) :
    hasDelim (a ++ b) = true := by
  induction a with
  | nil => simp [hasDelim] at h
  | cons c r ih =>
    simp only [hasDelim, Bool.or_eq_true] at h ⊢
    rcases h with h | h
    · exact Or.inl (by simpa using delimAt_append_true _ b h)
    · exact Or.inr (ih h)

theorem hasDelim_of_append_false (a b : List Char) (h : hasDelim (a ++ b) = false) :
    hasDelim a = false := by
  cases ha : hasDelim a
  · rfl
  · rw [hasDelim_append_true a b ha] at h; exact h.symm ▸ rfl

theorem pySplitM_false_nodelim_all (acc l : List Char) (h : hasDelim l = false) :
    pySplitM false acc l = [acc.reverse ++ l] := by
  induction l generalizing acc with
  | nil => simp [pySplitM_nil]
  | cons c r ih =>
    simp only [hasDelim, Bool.or_eq_false_iff] at h
    rw [pySplitM_false_nodelim _ _ _ h.1, ih _ h.2]
    simp

theorem pySplitM_false_head (acc l : List Char) :
    ∃ tail rest, pySplitM false acc l = (acc.reverse ++ tail) :: rest := by
  induction l generalizing acc with
  | nil => exact ⟨[], [], by simp [pySplitM_nil]⟩
  | cons c r ih =>
    cases hd : delimAt (c :: r)
    · obtain ⟨tail, rest, htr⟩ := ih (c :: acc)
      refine ⟨c :: tail, rest, ?_⟩
      rw [pySplitM_false_nodelim _ _ _ hd, htr]; simp
    · exact ⟨[], pySplitM true [] (r.drop 4), by rw [pySplitM_false_delim _ _ _ hd]; simp⟩

theorem pySplitM_true_all_ws (l : List Char) (h : pySplitM true [] l = [[]]) :
    l.all isWS = true := by
  induction l with
  | nil => rfl
  | cons c r ih =>
    cases hc : isWS c
    · exfalso
      rw [pySplitM_true_nws _ _ _ hc] at h
      obtain ⟨tail, rest, htr⟩ := pySplitM_false_head [c] r
      rw [htr] at h
      simp at h
    · rw [pySplitM_true_ws _ _ _ hc] at h
      simp [List.all_cons, hc, ih h]

theorem pySplitM_true_ws_append (acc l t : List Char) (h : l.all isWS = true) :
    pySplitM true acc (l ++ t) = pySplitM true acc t := by
  induction l with
  | nil => rfl
  | cons c r ih =>
    simp only [List.all_cons, Bool.and_eq_true] at h
    rw [List.cons_append, pySplitM_true_ws _ _ _ h.1, ih h.2]

theorem delimAt_false_of_not_shape (c : Char) (r : List Char)
    (hno : ∀ w rest, c = '\n' → r = '#' :: '#' :: '#' :: w :: rest → False) :
    delimAt (c :: r) = false := by
  cases hdt : delimAt (c :: r)
  · rfl
  · obtain ⟨w, rest, heq, hw⟩ := delimAt_true_shape _ hdt
    injection heq with e1 e2
    exact (hno w rest e1 e2).elim

theorem pySplitM_append (mode : Bool) (acc rem : List Char) :
    ∀ t, 2 ≤ (pySplitM mode acc rem).length →
      (pySplitM mode acc rem).getLast? = some [] →
      pySplitM mode acc (rem ++ t) =
        (pySplitM mode acc rem).dropLast ++ pySplitM true [] t := by
  induction mode, acc, rem using pySplitM.induct with
  | case1 mode acc =>
    intro t h1 h2
    rw [pySplitM_nil] at h1
    simp at h1
  | case2 acc c r hws ih =>
    intro t h1 h2
    rw [pySplitM_true_ws _ _ _ hws] at h1 h2
    rw [List.cons_append, pySplitM_true_ws acc c (r ++ t) hws,
      pySplitM_true_ws acc c r hws]
    exact ih t h1 h2
  | case3 acc c r hnws ih =>
    have hc : isWS c = false := by simpa using hnws
    intro t h1 h2
    rw [pySplitM_true_nws _ _ _ hc] at h1 h2
    rw [List.cons_append, pySplitM_true_nws acc c (r ++ t) hc,
      pySplitM_true_nws acc c r hc]
    exact ih t h1 h2
  | case4 acc w rest hws ih =>
    have hstep : ∀ l, pySplitM false acc ('\n' :: '#' :: '#' :: '#' :: w :: l) =
        acc.reverse :: pySplitM true [] l := fun l => by simp [pySplitM, hws]
    intro t h1 h2
    rw [hstep] at h1 h2
    have hne := pySplitM_ne_nil true [] rest
    have h2' : (pySplitM true [] rest).getLast? = some [] := by
      obtain ⟨x, xs, ho⟩ := List.exists_cons_of_ne_nil hne
      rw [ho] at h2 ⊢
      rwa [List.getLast?_cons_cons] at h2
    rw [show ('\n' :: '#' :: '#' :: '#' :: w :: rest) ++ t =
      '\n' :: '#' :: '#' :: '#' :: w :: (rest ++ t) from rfl]
    simp only [hstep]
    by_cases hlen : 2 ≤ (pySplitM true [] rest).length
    · rw [ih t hlen h2', List.dropLast_cons_of_ne_nil hne]
      simp
    · have hl1 : (pySplitM true [] rest).length = 1 := by
        have := List.length_pos.mpr hne
        omega
      obtain ⟨x, hx⟩ := List.length_eq_one.mp hl1
      rw [hx] at h2'
      simp at h2'
      subst h2'
      have hall := pySplitM_true_all_ws rest hx
      rw [pySplitM_true_ws_append [] rest t hall, hx]
      simp
  | case5 acc w rest hnws ih =>
    have hw : isWS w = false := by simpa using hnws
    have hstep : ∀ l, pySplitM false acc ('\n' :: '#' :: '#' :: '#' :: w :: l) =
        pySplitM false ('\n' :: acc) ('#' :: '#' :: '#' :: w :: l) := fun l => by
      simp [pySplitM, hw]
    intro t h1 h2
    rw [hstep] at h1 h2
    rw [show ('\n' :: '#' :: '#' :: '#' :: w :: rest) ++ t =
      '\n' :: '#' :: '#' :: '#' :: w :: (rest ++ t) from rfl]
    simp only [hstep]
    simpa only [List.cons_append] using ih t h1 h2
  | case6 acc c r hno ih =>
    have hd : delimAt (c :: r) = false := delimAt_false_of_not_shape c r hno
    intro t h1 h2
    rw [pySplitM_false_nodelim _ _ _ hd] at h1 h2
    by_cases hr : 4 ≤ r.length
    · have hd2 : delimAt (c :: (r ++ t)) = false := by
        have h5 : 5 ≤ (c :: r).length := by simp; omega
        have := delimAt_append_eq (c :: r) t h5
        rw [show (c :: r) ++ t = c :: (r ++ t) from rfl] at this
        rw [this]
        exact hd
      rw [show (c :: r) ++ t = c :: (r ++ t) from rfl,
        pySplitM_false_nodelim _ _ _ hd2, pySplitM_false_nodelim acc c r hd]
      exact ih t h1 h2
    · have hnd : hasDelim r = false := hasDelim_short r (by omega)
      rw [pySplitM_false_nodelim_all _ _ hnd] at h1
      simp at h1

theorem pySplit_no_delim (l : List Char) (h : hasDelim l = false) : pySplit l = [l] := by
  rw [pySplit, pySplitM_false_nodelim_all [] l h]
  simp

theorem pySplitM_true_eq_pySplit (l : List Char) (h : headNotWS l = true) :
    pySplitM true [] l = pySplit l := by
  match l, h with
  | [], _ => rfl
  | ch :: r, h =>
    have hc : isWS ch = false := by simpa [headNotWS] using h
    rw [pySplitM_true_nws _ _ _ hc, pySplit]
    have hne : ch ≠ '\n' := by
      intro he
      rw [he] at hc
      exact absurd hc (by decide)
    rw [pySplitM_false_nodelim [] ch r]
    cases r with
    | nil => simp [delimAt]
    | cons c2 r2 =>
      cases r2 with
      | nil => simp [delimAt]
      | cons c3 r3 =>
        cases r3 with
        | nil => simp [delimAt]
        | cons c4 r4 =>
          cases r4 with
          | nil => simp [delimAt]
          | cons c5 r5 => simp [delimAt, hne]

theorem pySplit_eq_nil_section (c : List Char) (h : pySplit c = [[]]) : c = [] := by
  match c with
  | [] => rfl
  | ch :: r =>
    exfalso
    cases hd : delimAt (ch :: r)
    · obtain ⟨tail, rest, htr⟩ := pySplitM_false_head [ch] r
      rw [pySplit, pySplitM_false_nodelim _ _ _ hd, htr] at h
      simp at h
    · rw [pySplit, pySplitM_false_delim _ _ _ hd] at h
      have := pySplitM_ne_nil true [] (r.drop 4)
      simp at h
      exact this h

theorem parseNewsSection_nil : parseNewsSection [] = none := rfl

/-- C10: whenever the buffer splits into at most two delimiter-separated
segments, `parse_news_articles_streaming` returns the empty list — even
when the first segment is a complete valid article followed by a
delimiter; a record can be emitted only from a buffer with at least
three segments. -/
theorem streaming_requires_three_segments (content : List Char)
    (h : (pySplit content).length ≤ 2) :
    parseNewsArticlesStreaming content = [] := by
  simp [parseNewsArticlesStreaming, h]

theorem streaming_requires_three_segments_witness :
    (pySplit c3Buffer).length ≤ 2 ∧ parseNewsArticlesStreaming c3Buffer = [] :=
  ⟨by decide, streaming_requires_three_segments c3Buffer (by decide)⟩

/-- C1 counterexample: on the scenario buffer (complete first article,
incomplete second heading) the streaming segmenter does NOT return
exactly one record — the buffer splits into only two sections and the
two-section guard suppresses all output. -/
theorem c1_scenario_false : ¬ (parseNewsArticlesStreaming c1Buffer).length = 1 := by
  decide

/-- C1 amended: on the scenario buffer the streaming segmenter returns
no record at all, because the buffer splits into only two
delimiter-separated sections and streaming mode requires more than two. -/
theorem c1_scenario_amended : parseNewsArticlesStreaming c1Buffer = [] := by
  decide

/-- C3 counterexample: a buffer whose single complete article is closed
by a final delimiter (two sections in total).  Appending one more empty
delimiter-bounded terminator still yields no streaming output, while the
batch parser extracts the article — and no prefix of the buffer can have
emitted it (every prefix has at most two sections).  So the claimed
streaming/batch equivalence fails as stated. -/
theorem streaming_terminator_equiv_cex :
    parseNewsArticlesStreaming (c3Buffer ++ termSeq) = [] ∧
    parseNewsArticles c3Buffer ≠ [] :=
  ⟨by decide, by decide⟩

/-- C3 amended: for every buffer that ends with a final heading delimiter
and splits into at least three sections (two article slots plus the empty
terminator section), appending one more empty delimiter-bounded
terminator makes the streaming segmenter return exactly the records of
the batch segmenter on the original buffer. -/
theorem streaming_terminator_equiv (b : List Char) (ss : List (List Char))
    (hsplit : pySplit b = ss ++ [[]]) (hlen : 2 ≤ ss.length) :
    parseNewsArticlesStreaming (b ++ termSeq) = parseNewsArticles b := by
  have hlen2 : 2 ≤ (pySplit b).length := by
    rw [hsplit]
    simp
    omega
  have hlast : (pySplit b).getLast? = some [] := by
    rw [hsplit]
    exact List.getLast?_concat _
  have happ : pySplit (b ++ termSeq) =
      (pySplit b).dropLast ++ pySplitM true [] termSeq :=
    pySplitM_append false [] b termSeq hlen2 hlast
  have hterm : pySplitM true [] termSeq = [['#', '#', '#', ' ']] := by decide
  have hsections : pySplit (b ++ termSeq) = ss ++ [['#', '#', '#', ' ']] := by
    rw [happ, hsplit, List.dropLast_concat, hterm]
  simp only [parseNewsArticlesStreaming, hsections, parseNewsArticles, hsplit]
  rw [if_neg (by simp; omega), List.dropLast_concat, List.filterMap_append]
  simp [parseNewsSection_nil]

theorem streaming_terminator_equiv_witness :
    pySplit preBuffer = ["x".data, vnArticleText] ++ [[]] ∧
    2 ≤ (["x".data, vnArticleText] : List (List Char)).length ∧
    parseNewsArticlesStreaming (preBuffer ++ termSeq) = parseNewsArticles preBuffer :=
  ⟨by decide, by decide,
   streaming_terminator_equiv preBuffer ["x".data, vnArticleText] (by decide) (by decide)⟩

/-- C2: no premature emission.  Decompose a full buffer as `c ++ L`,
where `c` ends with the last heading delimiter (its split ends with the
empty section) and `L` is the final segment (no delimiter inside it, and
a non-whitespace head unless `c` is empty).  For every prefix `c ++ t`
of the full buffer that ends strictly inside the last segment
(`t ++ s = L` with `s ≠ []`), every record the streaming segmenter
emits on the prefix is parsed from one of the full buffer's complete
(non-final) sections — never from the unterminated last segment. -/
theorem no_premature_emission (c L t s : List Char) (r : NewsArticle)
    (hL : hasDelim L = false)
    (hhead : headNotWS L = true ∨ c = [])
    (hdecomp : t ++ s = L) (hs : s ≠ [])
    (hlast : (pySplit c).getLast? = some [])
    (hmem : r ∈ parseNewsArticlesStreaming (c ++ t)) :
    ∃ sec ∈ (pySplit (c ++ L)).dropLast, parseNewsSection sec = some r := by
  have htd : hasDelim t = false := by
    refine hasDelim_of_append_false t s ?_
    rw [hdecomp]
    exact hL
  by_cases hcnil : (pySplit c).length ≤ 1
  · have h1 : (pySplit c).length = 1 := by
      have hne : pySplit c ≠ [] := pySplitM_ne_nil false [] c
      have := List.length_pos.mpr hne
      omega
    obtain ⟨x, hx⟩ := List.length_eq_one.mp h1
    rw [hx] at hlast
    simp at hlast
    subst hlast
    have hc0 : c = [] := pySplit_eq_nil_section c hx
    subst hc0
    rw [List.nil_append] at hmem
    have hstr : parseNewsArticlesStreaming t = [] := by
      simp [parseNewsArticlesStreaming, pySplit_no_delim t htd]
    rw [hstr] at hmem
    simp at hmem
  · have hlen2 : 2 ≤ (pySplit c).length := by omega
    have hLhead : headNotWS L = true := by
      rcases hhead with hh | hc0
      · exact hh
      · exfalso
        subst hc0
        rw [show pySplit ([] : List Char) = [[]] from rfl] at hlen2
        simp at hlen2
    have hth : headNotWS t = true := by
      cases t with
      | nil => rfl
      | cons ch r2 =>
        rw [← hdecomp] at hLhead
        simpa [headNotWS] using hLhead
    have hsplit_t : pySplit (c ++ t) = (pySplit c).dropLast ++ [t] := by
      have happ : pySplit (c ++ t) = (pySplit c).dropLast ++ pySplitM true [] t :=
        pySplitM_append false [] c t hlen2 hlast
      rw [pySplitM_true_eq_pySplit t hth, pySplit_no_delim t htd] at happ
      exact happ
    have hsplit_L : pySplit (c ++ L) = (pySplit c).dropLast ++ [L] := by
      have happ : pySplit (c ++ L) = (pySplit c).dropLast ++ pySplitM true [] L :=
        pySplitM_append false [] c L hlen2 hlast
      rw [pySplitM_true_eq_pySplit L hLhead, pySplit_no_delim L hL] at happ
      exact happ
    simp only [parseNewsArticlesStreaming, hsplit_t] at hmem
    by_cases hlen3 : ((pySplit c).dropLast ++ [t]).length ≤ 2
    · rw [if_pos hlen3] at hmem
      simp at hmem
    · rw [if_neg hlen3, List.dropLast_concat] at hmem
      rw [hsplit_L, List.dropLast_concat]
      exact List.mem_filterMap.mp hmem

theorem no_premature_emission_witness :
    hasDelim thaiTail = false ∧ headNotWS thaiTail = true ∧
    "Thai".data ++ " baht rallies".data = thaiTail ∧
    (pySplit preBuffer).getLast? = some [] ∧
    vnRecord ∈ parseNewsArticlesStreaming (preBuffer ++ "Thai".data) ∧
    ∃ sec ∈ (pySplit (preBuffer ++ thaiTail)).dropLast,
      parseNewsSection sec = some vnRecord := by
  refine ⟨by decide, by decide, by decide, by decide, by decide, ?_⟩
  exact no_premature_emission preBuffer thaiTail "Thai".data " baht rallies".data
    vnRecord (by decide) (Or.inl (by decide)) (by decide) (by decide)
    (by decide) (by decide)

/-! Lemmas about the status-log merger. -/

theorem overlayField_idem (o n : Option String) :
    overlayField (overlayField o n) n = overlayField o n := by
  cases n <;> rfl

theorem overlayField_self (o : Option String) : overlayField o o = o := by
  cases o <;> rfl

theorem mergeEntry_merge_idem (e u : RouteEntry) :
    mergeEntry (mergeEntry e u) u = mergeEntry e u := by
  simp [mergeEntry, overlayField_idem]

theorem mergeEntry_self (u : RouteEntry) : mergeEntry u u = u := by
  cases u
  simp [mergeEntry, overlayField_self]

theorem mergeEntry_id (e u : RouteEntry) (h : e.id = u.id) :
    (mergeEntry e u).id = u.id := by
  cases hu : u.id with
  | none =>
    simp only [mergeEntry, overlayField, hu]
    exact h.trans hu
  | some v => simp [mergeEntry, overlayField, hu]

theorem updateRoutingLog_append (log : List RouteEntry) (upd : RouteEntry)
    (hall : ∀ e ∈ log, ¬ e.id = upd.id) :
    updateRoutingLog log upd = (true, log ++ [upd]) := by
  induction log with
  | nil => rfl
  | cons a rest ih =>
    simp only [updateRoutingLog]
    rw [if_neg (hall a (by simp))]
    simp [ih (fun e he => hall e (by simp [he]))]

theorem updateRoutingLog_found (upd : RouteEntry) (pre : List RouteEntry) :
    ∀ e post, (∀ x ∈ pre, ¬ x.id = upd.id) → e.id = upd.id →
    updateRoutingLog (pre ++ e :: post) upd =
      if mergeEntry e upd = e then (false, pre ++ e :: post)
      else (true, pre ++ mergeEntry e upd :: post) := by
  induction pre with
  | nil =>
    intro e post _ hid
    simp only [List.nil_append, updateRoutingLog]
    rw [if_pos hid]
  | cons a pre' ih =>
    intro e post hpre hid
    simp only [List.cons_append, updateRoutingLog]
    rw [if_neg (hpre a (by simp))]
    simp only [List.append_eq]
    rw [ih e post (fun x hx => hpre x (by simp [hx])) hid]
    by_cases hm : mergeEntry e upd = e <;> simp [hm]

/-- C4 counterexample: for the log `[{id: a, label: "X"}]` and the update
`{id: a, label: ""}` the spec's non-empty-overlay merge leaves the entry
unchanged (so the claim demands `False` and an untouched log), but
`update_routing_log` overlays the present-but-empty label, reports
`True` and overwrites the entry. -/
theorem update_routing_log_nonempty_cex :
    specMergeNonEmpty entryA updEmptyLabel = entryA ∧
    updateRoutingLog [entryA] updEmptyLabel =
      (true, [mergeEntry entryA updEmptyLabel]) ∧
    mergeEntry entryA updEmptyLabel ≠ entryA := by
  decide

/-- C4 amended: `update_routing_log` merges by overlaying every field
present in the update (including empty-valued fields).  If no entry
carries the update's id the update is appended and `True` returned; at
the first entry with the update's id, the overlay-merge is computed — if
it equals the old entry, `False` is returned and the log is unchanged,
otherwise the entry is overwritten in place and `True` returned. -/
theorem update_routing_log_spec (log : List RouteEntry) (upd : RouteEntry) :
    ((∀ e ∈ log, ¬ e.id = upd.id) →
      updateRoutingLog log upd = (true, log ++ [upd])) ∧
    (∀ pre e post, log = pre ++ e :: post → (∀ x ∈ pre, ¬ x.id = upd.id) →
      e.id = upd.id →
      updateRoutingLog log upd =
        if mergeEntry e upd = e then (false, log)
        else (true, pre ++ mergeEntry e upd :: post)) :=
  ⟨fun hall => updateRoutingLog_append log upd hall,
   fun pre e post hlog hpre hid => by
    subst hlog
    exact updateRoutingLog_found upd pre e post hpre hid⟩

theorem update_routing_log_spec_witness :
    updateRoutingLog [entryA, entryB] updB =
      (true, [entryA] ++ mergeEntry entryB updB :: []) := by
  have h := (update_routing_log_spec [entryA, entryB] updB).2 [entryA] entryB []
    (by decide) (by decide) (by decide)
  rw [h, if_neg (by decide)]

/-- C5: applying the same update twice: the second application reports
no change and leaves the log exactly as after the first application. -/
theorem update_routing_log_idem (log : List RouteEntry) (upd : RouteEntry) :
    updateRoutingLog (updateRoutingLog log upd).2 upd =
      (false, (updateRoutingLog log upd).2) := by
  induction log with
  | nil =>
    simp only [updateRoutingLog]
    simp [mergeEntry_self]
  | cons a rest ih =>
    by_cases hid : a.id = upd.id
    · simp only [updateRoutingLog, if_pos hid]
      by_cases hm : mergeEntry a upd = a
      · rw [if_pos hm]
        simp only [updateRoutingLog]
        rw [if_pos hid, if_pos hm]
      · rw [if_neg hm]
        simp only [updateRoutingLog]
        rw [if_pos (mergeEntry_id a upd hid), if_pos (mergeEntry_merge_idem a upd)]
    · simp only [updateRoutingLog, if_neg hid]
      simp only [updateRoutingLog, if_neg hid, ih]

/-! Lemmas about the fingerprint dedup filter. -/

theorem dedupNewArticles_append (A B : List NewsArticle) (seen : List (List Char)) :
    dedupNewArticles (A ++ B) seen =
      ((dedupNewArticles A seen).1 ++
        (dedupNewArticles B (dedupNewArticles A seen).2).1,
       (dedupNewArticles B (dedupNewArticles A seen).2).2) := by
  induction A generalizing seen with
  | nil => simp [dedupNewArticles]
  | cons a rest ih =>
    simp only [List.cons_append, dedupNewArticles]
    by_cases h1 : makeNewsKey a = []
    · simp [h1, ih]
    · by_cases h2 : makeNewsKey a ∈ seen
      · simp [h1, h2, ih]
      · simp [h1, h2, ih]

theorem dedupNewArticles_seen_mono (L : List NewsArticle) (seen : List (List Char))
    (k : List Char) (hk : k ∈ seen) : k ∈ (dedupNewArticles L seen).2 := by
  induction L generalizing seen with
  | nil => exact hk
  | cons a rest ih =>
    simp only [dedupNewArticles]
    by_cases h1 : makeNewsKey a = []
    · simp only [if_pos h1]
      exact ih seen hk
    · by_cases h2 : makeNewsKey a ∈ seen
      · simp only [if_neg h1, if_pos h2]
        exact ih seen hk
      · simp only [if_neg h1, if_neg h2]
        exact ih (makeNewsKey a :: seen) (by simp [hk])

theorem dedupNewArticles_post (L : List NewsArticle) (seen : List (List Char)) :
    ∀ a ∈ L, makeNewsKey a = [] ∨ makeNewsKey a ∈ (dedupNewArticles L seen).2 := by
  induction L generalizing seen with
  | nil => simp
  | cons b rest ih =>
    intro a ha
    simp only [dedupNewArticles]
    rcases List.mem_cons.mp ha with rfl | hmem
    · by_cases h1 : makeNewsKey a = []
      · exact Or.inl h1
      · by_cases h2 : makeNewsKey a ∈ seen
        · simp only [if_neg h1, if_pos h2]
          exact Or.inr (dedupNewArticles_seen_mono rest seen _ h2)
        · simp only [if_neg h1, if_neg h2]
          exact Or.inr (dedupNewArticles_seen_mono rest _ _ (by simp))
    · by_cases h1 : makeNewsKey b = []
      · simp only [if_pos h1]
        exact ih seen a hmem
      · by_cases h2 : makeNewsKey b ∈ seen
        · simp only [if_neg h1, if_pos h2]
          exact ih seen a hmem
        · simp only [if_neg h1, if_neg h2]
          exact ih (makeNewsKey b :: seen) a hmem

theorem dedupNewArticles_annihilate (L : List NewsArticle) (seen : List (List Char))
    (h : ∀ a ∈ L, makeNewsKey a = [] ∨ makeNewsKey a ∈ seen) :
    dedupNewArticles L seen = ([], seen) := by
  induction L with
  | nil => rfl
  | cons a rest ih =>
    simp only [dedupNewArticles]
    rcases h a (by simp) with h1 | h2
    · simp only [if_pos h1]
      exact ih (fun b hb => h b (by simp [hb]))
    · have h1 : makeNewsKey a ∈ seen := h2
      by_cases h0 : makeNewsKey a = []
      · simp only [if_pos h0]
        exact ih (fun b hb => h b (by simp [hb]))
      · simp only [if_neg h0, if_pos h1]
        exact ih (fun b hb => h b (by simp [hb]))

/-- C8: the dedup filtering of `build_news_records_from_articles` is
stable under duplication of its input: filtering `L ++ L` from a fresh
empty seen-set keeps exactly the records (and final seen-set) of
filtering `L` alone — the second pass contributes nothing. -/
theorem dedup_filter_stable (L : List NewsArticle) :
    dedupNewArticles (L ++ L) [] = dedupNewArticles L [] := by
  rw [dedupNewArticles_append]
  rw [dedupNewArticles_annihilate L (dedupNewArticles L []).2
    (fun a ha => dedupNewArticles_post L [] a ha)]
  simp

/-! Lemmas about the partial-field reader. -/

theorem isPrefixOf_length_le (n l : List Char) (h : n.isPrefixOf l = true) :
    n.length ≤ l.length := by
  induction n generalizing l with
  | nil => simp
  | cons a as ih =>
    cases l with
    | nil => simp [List.isPrefixOf] at h
    | cons b bs =>
      simp only [List.isPrefixOf, Bool.and_eq_true] at h
      simpa using ih bs h.2

theorem isPrefixOf_append_of_true (n l e : List Char) (h : n.isPrefixOf l = true) :
    n.isPrefixOf (l ++ e) = true := by
  induction n generalizing l with
  | nil => simp [List.isPrefixOf]
  | cons a as ih =>
    cases l with
    | nil => simp [List.isPrefixOf] at h
    | cons b bs =>
      simp only [List.isPrefixOf, Bool.and_eq_true] at h
      simp only [List.cons_append, List.isPrefixOf, Bool.and_eq_true]
      exact ⟨h.1, ih bs h.2⟩

theorem isPrefixOf_append_of_false (n l e : List Char) (hlen : n.length ≤ l.length)
    (h : n.isPrefixOf l = false) : n.isPrefixOf (l ++ e) = false := by
  induction n generalizing l with
  | nil => simp [List.isPrefixOf] at h
  | cons a as ih =>
    cases l with
    | nil => simp at hlen
    | cons b bs =>
      simp only [List.isPrefixOf, Bool.and_eq_false_iff] at h
      simp only [List.cons_append, List.isPrefixOf, Bool.and_eq_false_iff]
      rcases h with h | h
      · exact Or.inl h
      · exact Or.inr (ih bs (by simpa using hlen) h)

theorem dropToSub_some_le (n l s : List Char) (h : dropToSub n l = some s) :
    s.length ≤ l.length ∧ n.isPrefixOf s = true := by
  induction l with
  | nil =>
    simp only [dropToSub] at h
    by_cases hn : n.isEmpty
    · rw [if_pos hn] at h
      cases h
      refine ⟨le_refl _, ?_⟩
      cases n with
      | nil => rfl
      | cons a as => simp at hn
    · rw [if_neg hn] at h
      cases h
  | cons c r ih =>
    simp only [dropToSub] at h
    by_cases hp : n.isPrefixOf (c :: r) = true
    · rw [if_pos hp] at h
      cases h
      exact ⟨le_refl _, hp⟩
    · rw [if_neg hp] at h
      obtain ⟨h1, h2⟩ := ih h
      exact ⟨by simp; omega, h2⟩

theorem dropToSub_append (n b e s : List Char) (h : dropToSub n b = some s) :
    dropToSub n (b ++ e) = some (s ++ e) := by
  induction b with
  | nil =>
    simp only [dropToSub] at h
    by_cases hn : n.isEmpty
    · rw [if_pos hn] at h
      cases h
      have hn0 : n = [] := by
        cases n with
        | nil => rfl
        | cons a as => simp at hn
      subst hn0
      cases e with
      | nil => rfl
      | cons c r => simp [dropToSub, List.isPrefixOf]
    · rw [if_neg hn] at h
      cases h
  | cons c r ih =>
    simp only [dropToSub] at h
    by_cases hp : n.isPrefixOf (c :: r) = true
    · rw [if_pos hp] at h
      cases h
      simp only [List.cons_append, dropToSub, List.append_eq]
      rw [if_pos (show n.isPrefixOf (c :: (r ++ e)) = true from
        isPrefixOf_append_of_true n (c :: r) e hp)]
    · rw [if_neg hp] at h
      have hlen : n.length ≤ (c :: r).length := by
        obtain ⟨h1, h2⟩ := dropToSub_some_le n r s h
        have := isPrefixOf_length_le n s h2
        simp
        omega
      have hp' : n.isPrefixOf (c :: r) = false := by
        cases hb : n.isPrefixOf (c :: r)
        · rfl
        · exact absurd hb hp
      have hext : n.isPrefixOf (c :: (r ++ e)) = false :=
        isPrefixOf_append_of_false n (c :: r) e hlen hp'
      simp only [List.cons_append, dropToSub, List.append_eq]
      rw [if_neg (by rw [hext]; simp)]
      exact ih h

theorem decode_quote (r : List Char) : decodeJsonString ('"' :: r) = [] := by
  simp [decodeJsonString, decodeM]

theorem decode_plain (c : Char) (r : List Char) (hq : c ≠ '"') (hb : c ≠ '\\') :
    decodeJsonString (c :: r) = c :: decodeJsonString r := by
  simp [decodeJsonString, decodeM, hq, hb]

theorem decode_esc (nxt : Char) (rest2 : List Char) (hu : nxt ≠ 'u') :
    decodeJsonString ('\\' :: nxt :: rest2) = escDecode nxt :: decodeJsonString rest2 := by
  match rest2 with
  | [] => simp [decodeJsonString, decodeM, hu]
  | [a1] => simp [decodeJsonString, decodeM, hu]
  | [a1, a2] => simp [decodeJsonString, decodeM, hu]
  | [a1, a2, a3] => simp [decodeJsonString, decodeM, hu]
  | a1 :: a2 :: a3 :: a4 :: r => simp [decodeJsonString, decodeM, hu]

theorem decode_u4 (h1 h2 h3 h4 : Char) (rest3 : List Char) :
    decodeJsonString ('\\' :: 'u' :: h1 :: h2 :: h3 :: h4 :: rest3) =
      if (pyChr4 h1 h2 h3 h4).isSome then
        (pyChr4 h1 h2 h3 h4).getD 'u' :: decodeJsonString rest3
      else 'u' :: decodeJsonString (h1 :: h2 :: h3 :: h4 :: rest3) := by
  simp [decodeJsonString, decodeM]

theorem decode_u_short (r2 : List Char) (h : r2.length < 4) :
    decodeJsonString ('\\' :: 'u' :: r2) = 'u' :: decodeJsonString r2 := by
  match r2, h with
  | [], _ => rfl
  | [a1], _ => rfl
  | [a1, a2], _ => rfl
  | [a1, a2, a3], _ => rfl

theorem truncU_quote (r : List Char) : decodeTruncU ('"' :: r) = false := by
  simp [decodeTruncU, decodeTruncUM]

theorem truncU_plain (c : Char) (r : List Char) (hq : c ≠ '"') (hb : c ≠ '\\') :
    decodeTruncU (c :: r) = decodeTruncU r := by
  simp [decodeTruncU, decodeTruncUM, hq, hb]

theorem truncU_esc (nxt : Char) (rest2 : List Char) (hu : nxt ≠ 'u') :
    decodeTruncU ('\\' :: nxt :: rest2) = decodeTruncU rest2 := by
  match rest2 with
  | [] => simp [decodeTruncU, decodeTruncUM, hu]
  | [a1] => simp [decodeTruncU, decodeTruncUM, hu]
  | [a1, a2] => simp [decodeTruncU, decodeTruncUM, hu]
  | [a1, a2, a3] => simp [decodeTruncU, decodeTruncUM, hu]
  | a1 :: a2 :: a3 :: a4 :: r => simp [decodeTruncU, decodeTruncUM, hu]

theorem truncU_u4 (h1 h2 h3 h4 : Char) (rest3 : List Char) :
    decodeTruncU ('\\' :: 'u' :: h1 :: h2 :: h3 :: h4 :: rest3) =
      if (pyChr4 h1 h2 h3 h4).isSome then decodeTruncU rest3
      else decodeTruncU (h1 :: h2 :: h3 :: h4 :: rest3) := by
  simp [decodeTruncU, decodeTruncUM]

theorem truncU_u_short (r2 : List Char) (h : r2.length < 4) :
    decodeTruncU ('\\' :: 'u' :: r2) = true := by
  match r2, h with
  | [], _ => rfl
  | [a1], _ => rfl
  | [a1, a2], _ => rfl
  | [a1, a2, a3], _ => rfl

theorem decodeM_esc (nxt : Char) (rest2 : List Char) (hu : nxt ≠ 'u') :
    decodeM true (nxt :: rest2) = escDecode nxt :: decodeM false rest2 := by
  match rest2 with
  | [] => simp [decodeM, hu]
  | [a1] => simp [decodeM, hu]
  | [a1, a2] => simp [decodeM, hu]
  | [a1, a2, a3] => simp [decodeM, hu]
  | a1 :: a2 :: a3 :: a4 :: r => simp [decodeM, hu]

theorem decodeTruncUM_esc (nxt : Char) (rest2 : List Char) (hu : nxt ≠ 'u') :
    decodeTruncUM true (nxt :: rest2) = decodeTruncUM false rest2 := by
  match rest2 with
  | [] => simp [decodeTruncUM, hu]
  | [a1] => simp [decodeTruncUM, hu]
  | [a1, a2] => simp [decodeTruncUM, hu]
  | [a1, a2, a3] => simp [decodeTruncUM, hu]
  | a1 :: a2 :: a3 :: a4 :: r => simp [decodeTruncUM, hu]

theorem decodeM_u4 (h1 h2 h3 h4 : Char) (rest3 : List Char) :
    decodeM true ('u' :: h1 :: h2 :: h3 :: h4 :: rest3) =
      if (pyChr4 h1 h2 h3 h4).isSome then
        (pyChr4 h1 h2 h3 h4).getD 'u' :: decodeM false rest3
      else 'u' :: decodeM false (h1 :: h2 :: h3 :: h4 :: rest3) := by
  simp [decodeM]

theorem decodeTruncUM_u4 (h1 h2 h3 h4 : Char) (rest3 : List Char) :
    decodeTruncUM true ('u' :: h1 :: h2 :: h3 :: h4 :: rest3) =
      if (pyChr4 h1 h2 h3 h4).isSome then decodeTruncUM false rest3
      else decodeTruncUM false (h1 :: h2 :: h3 :: h4 :: rest3) := by
  simp [decodeTruncUM]

theorem decodeM_mono (mode : Bool) (t : List Char) :
    decodeTruncUM mode t = false →
      ∀ e, ∃ k, decodeM mode t ++ k = decodeM mode (t ++ e) := by
  induction mode, t using decodeM.induct with
  | case1 => exact fun _ e => ⟨decodeM false e, rfl⟩
  | case2 rest => exact fun _ e => ⟨[], by simp [decodeM]⟩
  | case3 rest hne ih =>
    intro h e
    simp only [decodeTruncUM] at h
    simp at h
    obtain ⟨k, hk⟩ := ih h e
    exact ⟨k, by simpa [decodeM] using hk⟩
  | case4 c rest h1 h2 ih =>
    intro h e
    simp only [decodeTruncUM, if_neg h1, if_neg h2] at h
    obtain ⟨k, hk⟩ := ih h e
    exact ⟨k, by simp [decodeM, h1, h2, hk]⟩
  | case5 => exact fun _ e => ⟨decodeM true e, rfl⟩
  | case6 h1 h2 h3 h4 rest3 hsome ih =>
    intro h e
    rw [decodeTruncUM_u4, if_pos hsome] at h
    obtain ⟨k, hk⟩ := ih h e
    refine ⟨k, ?_⟩
    rw [show ('u' :: h1 :: h2 :: h3 :: h4 :: rest3) ++ e =
      'u' :: h1 :: h2 :: h3 :: h4 :: (rest3 ++ e) from rfl,
      decodeM_u4, decodeM_u4, if_pos hsome, if_pos hsome]
    simp [hk]
  | case7 h1 h2 h3 h4 rest3 hnone ih =>
    intro h e
    rw [decodeTruncUM_u4, if_neg hnone] at h
    obtain ⟨k, hk⟩ := ih h e
    refine ⟨k, ?_⟩
    rw [show ('u' :: h1 :: h2 :: h3 :: h4 :: rest3) ++ e =
      'u' :: h1 :: h2 :: h3 :: h4 :: (rest3 ++ e) from rfl,
      decodeM_u4, decodeM_u4, if_neg hnone, if_neg hnone]
    simpa using hk
  | case8 =>
    intro h
    simp [decodeTruncUM] at h
  | case9 a1 ih =>
    intro h
    simp [decodeTruncUM] at h
  | case10 a1 a2 ih =>
    intro h
    simp [decodeTruncUM] at h
  | case11 a1 a2 a3 ih =>
    intro h
    simp [decodeTruncUM] at h
  | case12 nxt rest2 hu ih =>
    intro h e
    rw [decodeTruncUM_esc nxt rest2 hu] at h
    obtain ⟨k, hk⟩ := ih h e
    refine ⟨k, ?_⟩
    rw [show (nxt :: rest2) ++ e = nxt :: (rest2 ++ e) from rfl,
      decodeM_esc nxt rest2 hu, decodeM_esc nxt (rest2 ++ e) hu]
    simp [hk]

theorem extract_mono (raw e : List Char) (h : extractTruncU raw = false) :
    ∃ k, extractACFJ raw ++ k = extractACFJ (raw ++ e) := by
  by_cases h0 : extractACFJ raw = []
  · exact ⟨extractACFJ (raw ++ e), by simp [h0]⟩
  · have hne : raw ≠ [] := by
      rintro rfl
      exact h0 rfl
    have hne2 : raw ++ e ≠ [] := by
      intro hc
      exact hne (List.append_eq_nil.mp hc).1
    rcases h1 : dropToSub "\"assistant\"".data raw with _ | s1
    · exact absurd (by simp [extractACFJ, hne, h1]) h0
    · rcases h2 : dropToSub "\"content\"".data s1 with _ | s2
      · exact absurd (by simp [extractACFJ, hne, h1, h2]) h0
      · rcases h3 : dropToSub [':'] s2 with _ | s3
        · exact absurd (by simp [extractACFJ, hne, h1, h2, h3]) h0
        · rcases h4 : (s3.tail).dropWhile isJsonWS with _ | ⟨c4, rest4⟩
          · exact absurd (by simp [extractACFJ, hne, h1, h2, h3, h4]) h0
          · by_cases hq : c4 = '"'
            · subst hq
              have htr : decodeTruncU rest4 = false := by
                simpa [extractTruncU, hne, h1, h2, h3, h4] using h
              have e1 := dropToSub_append _ raw e _ h1
              have e2 := dropToSub_append _ s1 e _ h2
              have e3 := dropToSub_append _ s2 e _ h3
              obtain ⟨hlen, hpre⟩ := dropToSub_some_le _ s2 s3 h3
              obtain ⟨tl, rfl⟩ : ∃ tl, s3 = ':' :: tl := by
                cases s3 with
                | nil => simp [List.isPrefixOf] at hpre
                | cons x tl =>
                  simp only [List.isPrefixOf, Bool.and_eq_true, beq_iff_eq] at hpre
                  exact ⟨tl, by rw [hpre.1]⟩
              have h4' : tl.dropWhile isJsonWS = '"' :: rest4 := h4
              have e4 : (tl ++ e).dropWhile isJsonWS = '"' :: (rest4 ++ e) := by
                rw [List.dropWhile_append, h4']
                simp
              obtain ⟨k, hk⟩ := decodeM_mono false rest4 htr e
              refine ⟨k, ?_⟩
              rw [show extractACFJ raw = decodeJsonString rest4 from
                by simp [extractACFJ, hne, h1, h2, h3, h4']]
              rw [show extractACFJ (raw ++ e) = decodeJsonString (rest4 ++ e) from
                by simp [extractACFJ, hne2, e1, e2, e3, e4]]
              exact hk
            · exact absurd (by simp [extractACFJ, hne, h1, h2, h3, h4, hq]) h0

/-- C6: partial-field monotonicity.  For a buffer `b1` and a strict
extension `b1 ++ ext`, the assistant content read from `b1` is a prefix
of the content read from the extension, whenever both reads are
non-empty and `b1` does not end inside a `\uXXXX` escape (the one
decoder state whose output is rewritten by completion of the escape). -/
theorem extract_content_mono (b1 ext : List Char)
    (h1 : extractACFJ b1 ≠ []) (h2 : extractACFJ (b1 ++ ext) ≠ [])
    (h3 : ext ≠ []) (h4 : extractTruncU b1 = false) :
    ∃ k, extractACFJ b1 ++ k = extractACFJ (b1 ++ ext) :=
  extract_mono b1 ext h4

theorem extract_content_mono_witness :
    extractACFJ jsonW1 ≠ [] ∧ extractACFJ (jsonW1 ++ jsonExt1) ≠ [] ∧
    jsonExt1 ≠ [] ∧ extractTruncU jsonW1 = false ∧
    ∃ k, extractACFJ jsonW1 ++ k = extractACFJ (jsonW1 ++ jsonExt1) :=
  ⟨by decide, by decide, by decide, by decide,
   extract_content_mono jsonW1 jsonExt1 (by decide) (by decide) (by decide) (by decide)⟩

/-- C7: the reader never fails.  Its Lean model is a total function by
construction; behaviourally, (a) a truncated `\u` escape (fewer than
four following characters available) emits the `u` literally and
re-decodes the remainder instead of failing, and (b) when the buffer
ends before the closing quote the reader returns everything decoded so
far — a prefix of what it returns once the string is closed by a
quote. -/
theorem extract_tolerant (raw r2 : List Char) (hlen : r2.length < 4) :
    decodeJsonString ('\\' :: 'u' :: r2) = 'u' :: decodeJsonString r2 ∧
    (extractTruncU raw = false →
      ∃ k, extractACFJ raw ++ k = extractACFJ (raw ++ ['"'])) :=
  ⟨decode_u_short r2 hlen, fun h => extract_mono raw ['"'] h⟩

theorem extract_tolerant_witness :
    decodeJsonString ('\\' :: 'u' :: ['1', '2']) = 'u' :: decodeJsonString ['1', '2'] ∧
    ∃ k, extractACFJ jsonW2 ++ k = extractACFJ (jsonW2 ++ ['"']) :=
  ⟨(extract_tolerant jsonW2 ['1', '2'] (by decide)).1,
   (extract_tolerant jsonW2 ['1', '2'] (by decide)).2 (by decide)⟩

/-- C9: when the strict parse fails and the first-brace-to-last-brace
retry also fails (or no valid slice exists), `safe_parse_json` returns
the fallback artifact: the schema object of `build_empty_response`
carrying the truncated raw buffer (200 characters plus an ellipsis) as
the user-visible assistant content, with every key of the output schema
present and empty/zero-valued.  The external `json.loads` is abstracted
as the parser parameter `p`, so this holds for every parser. -/
theorem safe_parse_json_fallback (p : List Char → Option JVal) (text : List Char)
    (h1 : p text = none)
    (h2 : ∀ sub, sliceOf text = some sub → p sub = none) :
    safeParseJson p text = buildEmptyResponse (fallbackMsg text) ∧
    fallbackMsg text =
      "抱歉，處理過程中發生問題。原始回應：".data ++ text.take 200 ++ "...".data ∧
    (∃ a, jGet (safeParseJson p text) "assistant".data = some a ∧
      jGet a "content".data = some (.str (fallbackMsg text)) ∧
      jGet a "bullets".data = some (.arr [])) ∧
    (∃ s, jGet (safeParseJson p text) "summary".data = some s ∧
      jGet s "output".data = some (.str []) ∧
      jGet s "borrower".data =
        some (.obj [("name".data, .str []), ("description".data, .str []),
          ("rating".data, .str [])]) ∧
      jGet s "metrics".data = some (.arr []) ∧
      jGet s "risks".data = some (.arr []) ∧
      jGet s "source_doc_id".data = some (.str []) ∧
      jGet s "source_doc_ids".data = some (.arr [])) ∧
    jGet (safeParseJson p text) "translation".data ≠ none ∧
    jGet (safeParseJson p text) "memo".data ≠ none ∧
    jGet (safeParseJson p text) "routing".data = some (.arr []) := by
  have hmain : safeParseJson p text = buildEmptyResponse (fallbackMsg text) := by
    rw [safeParseJson, h1]
    cases hs : sliceOf text with
    | none => simp
    | some sub => simp [h2 sub hs]
  refine ⟨hmain, rfl, ?_, ?_, ?_, ?_, ?_⟩ <;> rw [hmain]
  · exact ⟨_, rfl, rfl, rfl⟩
  · exact ⟨_, rfl, rfl, rfl, rfl, rfl, rfl, rfl⟩
  · intro hc
    simp [buildEmptyResponse, jGet, List.lookup] at hc
  · intro hc
    simp [buildEmptyResponse, jGet, List.lookup] at hc
  · rfl

theorem safe_parse_json_fallback_witness :
    safeParseJson (fun _ => none) "\x7bx\x7d".data =
      buildEmptyResponse (fallbackMsg "\x7bx\x7d".data) :=
  (safe_parse_json_fallback (fun _ => none) "\x7bx\x7d".data rfl (fun _ _ => rfl)).1
